import Mathlib

/-!
Verification of the rackerlabs/jetstream publisher and testing modules.

This file gives a shallow embedding, in Lean 4, of the comparison and
publish-gating logic of src/jetstream/publisher.py and of the polling and
dependency-flattening logic of src/jetstream/testing.py, and proves or
refutes the specified properties of those functions.

Modelling conventions:
- Decoded JSON-ish values are the inductive type JVal.  Python dicts are
  insertion-ordered association lists, tuples and lists are separate
  constructors (the comparator distinguishes them), numbers are Int.
- Python exceptions are modelled with Except, carrying the exception
  message as a String; the source inspects messages with the operator
  called in, which is modelled by pyIn (substring test).
- The json decoder itself is out of scope; functions that call json.load
  or json.loads are parametrised by a decoder
  dec : String -> Except String JVal where the error carries the message
  of the raised ValueError (which depends on the Python version).
- Mutation (del d[k], d[k] = v) is modelled by returning updated values.
-/

/-- Python substring containment needle in hay, on character lists. -/
def startsWithL : List Char → List Char → Bool
  | [], _ => true
  | _ :: _, [] => false
  | a :: as, b :: bs => a == b && startsWithL as bs

/-- Helper for pyIn: does nd occur as a contiguous sublist. -/
def hasSubL (nd : List Char) : List Char → Bool
  | [] => startsWithL nd []
  | c :: rest => startsWithL nd (c :: rest) || hasSubL nd rest

/-- Model of the Python expression needle in hay for strings. -/
def pyIn (needle hay : String) : Bool := hasSubL needle.toList hay.toList

/-- Decoded JSON-ish trees: the values the comparator in publisher.py
operates on.  obj keeps the insertion order of a Python dict; tup is a
Python tuple (distinct from a list at runtime). -/
inductive JVal where
  | null
  | bool (b : Bool)
  | num (n : Int)
  | str (s : String)
  | arr (xs : List JVal)
  | tup (xs : List JVal)
  | obj (kvs : List (String × JVal))

/-- Model of isinstance(a, type(b)) for the runtime types a JVal can take.
The one non-diagonal case: bool is a subclass of int in Python, so
isinstance(True, int) is true while isinstance(1, bool) is false. -/
def instOf : JVal → JVal → Bool
  | .null, .null => true
  | .bool _, .bool _ => true
  | .bool _, .num _ => true
  | .num _, .num _ => true
  | .str _, .str _ => true
  | .arr _, .arr _ => true
  | .tup _, .tup _ => true
  | .obj _, .obj _ => true
  | _, _ => false

mutual
/-- Model of the Python operator == on decoded values: numeric equality
identifies True with 1 and False with 0; a list never equals a tuple;
plain dicts compare by length plus per-key lookup, order-insensitively. -/
def pyEq : JVal → JVal → Bool
  | .null, .null => true
  | .bool a, .bool b => a == b
  | .bool a, .num n => (if a then (1 : Int) else 0) == n
  | .num n, .bool b => n == (if b then (1 : Int) else 0)
  | .num a, .num b => a == b
  | .str a, .str b => a == b
  | .arr xs, .arr ys => pyEqList xs ys
  | .tup xs, .tup ys => pyEqList xs ys
  | .obj a, .obj b => a.length == b.length && pyEqObj a b
  | _, _ => false
/-- Elementwise == on sequences. -/
def pyEqList : List JVal → List JVal → Bool
  | [], [] => true
  | x :: xs, y :: ys => pyEq x y && pyEqList xs ys
  | _, _ => false
/-- Each key of the first dict is looked up in the second and the values
compared; together with the length test this is dict equality. -/
def pyEqObj : List (String × JVal) → List (String × JVal) → Bool
  | [], _ => true
  | (k, v) :: rest, b => pyFind k v b && pyEqObj rest b
/-- Look up the first entry with key k and compare its value to v. -/
def pyFind : String → JVal → List (String × JVal) → Bool
  | _, _, [] => false
  | k, v, (k2, w) :: rest => if k2 == k then pyEq v w else pyFind k v rest
end

mutual
/-- Model of == between the OrderedDict trees produced by _sort_dict:
OrderedDict equality is order-sensitive (pairwise on the item lists),
while values reached through a list are plain values compared with ==. -/
def odEq : JVal → JVal → Bool
  | .obj a, .obj b => odEqPairs a b
  | a, b => pyEq a b
/-- Pairwise item comparison of two OrderedDicts. -/
def odEqPairs : List (String × JVal) → List (String × JVal) → Bool
  | [], [] => true
  | (k, v) :: ps, (k2, w) :: qs => k == k2 && odEq v w && odEqPairs ps qs
  | _, _ => false
end

/-- Sorting key for dict items: compare keys (Python sorted on items
compares the key component first and keys in a dict are unique). -/
def keyLe (p q : String × JVal) : Bool := decide (p.1 ≤ q.1)

mutual
/-- Model of _sort_dict (publisher.py lines 185-191): recursively sort a
dict by key, descending only into values that are themselves dicts; a
value inside a list is left untouched. -/
def _sort_dict : JVal → JVal
  | .obj kvs => .obj ((sortVals kvs).mergeSort keyLe)
  | v => v
/-- The loop over dikt.keys that replaces dict values by their sorted
form before the item list itself is sorted. -/
def sortVals : List (String × JVal) → List (String × JVal)
  | [] => []
  | (k, .obj kvs) :: rest => (k, _sort_dict (.obj kvs)) :: sortVals rest
  | (k, v) :: rest => (k, v) :: sortVals rest
end

/-- Model of _updated (publisher.py lines 194-201): see if dict updated.
Returns true when the values differ.  The shape test is
isinstance(a, type(b)); dicts are compared after recursive key sort; all
other values with the Python operator ==. -/
def _updated (a b : JVal) : Bool :=
  if !(instOf a b) then true
  else
    match a with
    | .obj _ => !(odEq (_sort_dict a) (_sort_dict b))
    | _ => !(pyEq a b)

/-- Modelled from the spec: the well-known volatile sub-key constant
TOPLEVEL_METADATA_KEY, imported by publisher.py from the jetstream
package root, whose file is not part of the sources here.  The spec:
top-level key "Metadata", nested well-known sub-key (a package-specific
constant) holding render-time metadata; the test scenarios of the spec
name it Jetstream.  No claim depends on the exact string. -/
def TOPLEVEL_METADATA_KEY : String := "Jetstream"

/-- Look up the value of the first entry with key k (Python d[k]). -/
def getL (k : String) : List (String × JVal) → Option JVal
  | [] => none
  | (k2, v) :: rest => if k2 == k then some v else getL k rest

/-- Python expression k in d.keys(). -/
def hasKeyL (k : String) (l : List (String × JVal)) : Bool :=
  (getL k l).isSome

/-- Python assignment d[k] = v for a key already present: the value is
replaced, the position of the entry is kept. -/
def setKeyL (k : String) (v : JVal) : List (String × JVal) → List (String × JVal)
  | [] => []
  | (k2, w) :: rest => if k2 == k then (k2, v) :: rest else (k2, w) :: setKeyL k v rest

/-- Python statement del d[k]: remove the (unique) entry with key k. -/
def delKeyL (k : String) : List (String × JVal) → List (String × JVal)
  | [] => []
  | (k2, w) :: rest => if k2 == k then rest else (k2, w) :: delKeyL k rest

/-- Key membership on a JVal that is expected to be a mapping.  On a
non-mapping Python would raise AttributeError from .keys(); the claims
only exercise mappings, so non-mappings are given no keys here. -/
def jHasKey (v : JVal) (k : String) : Bool :=
  match v with
  | .obj kvs => hasKeyL k kvs
  | _ => false

/-- Subscript d[k] on a mapping; only used under a jHasKey guard. -/
def jGet (v : JVal) (k : String) : JVal :=
  match v with
  | .obj kvs => (getL k kvs).getD .null
  | _ => .null

/-- Assignment d[k] = w on a mapping. -/
def jSetKey (v : JVal) (k : String) (w : JVal) : JVal :=
  match v with
  | .obj kvs => .obj (setKeyL k w kvs)
  | _ => v

/-- Statement del d[k] on a mapping. -/
def jDelKey (v : JVal) (k : String) : JVal :=
  match v with
  | .obj kvs => .obj (delKeyL k kvs)
  | _ => v

/-- Python test not d.keys() on a mapping value: true when empty. -/
def jEmptyKeys (v : JVal) : Bool :=
  match v with
  | .obj kvs => kvs.isEmpty
  | _ => false

/-- The deletion block remove_metadata applies to each template in turn:
when the template has a Metadata key whose mapping holds the volatile
sub-key, delete the sub-key. -/
def rm_strip (v : JVal) : JVal :=
  if jHasKey v "Metadata" && jHasKey (jGet v "Metadata") TOPLEVEL_METADATA_KEY then
    jSetKey v "Metadata" (jDelKey (jGet v "Metadata") TOPLEVEL_METADATA_KEY)
  else v

/-- Model of remove_metadata (publisher.py lines 35-60).  Deletes the
volatile sub-key from the Metadata mapping of each side when present;
then, when the current (existing) template has no Metadata key at all
and the Metadata mapping of the new template became empty, deletes the
Metadata key of the new template entirely.  The Python function mutates
its arguments; here the updated pair (current, new) is returned. -/
def remove_metadata (current new : JVal) : JVal × JVal :=
  let current := rm_strip current
  let new := rm_strip new
  let new :=
    if !(jHasKey current "Metadata") && (jHasKey new "Metadata" && jEmptyKeys (jGet new "Metadata")) then
      jDelKey new "Metadata"
    else new
  (current, new)

/-- Outcome of the read the two newer implementations start with:
either the raw stored content, or an exception whose message the code
inspects (botocore ClientError for S3, IOError for the local file). -/
inductive ReadResult where
  | ok (content : String)
  | err (msg : String)

/-- Model of S3Publisher.newer (publisher.py lines 78-111), parametrised
by the decoder and by the outcome of the get_object call.  A ClientError
whose message contains the no-such-key marker yields True; any other
ClientError is re-raised.  A ValueError from either json.load(body) or
json.loads(latest) lands in the same handler: when its message lacks the
Python-2 marker it is re-raised, otherwise the function returns True.
There is no raw-content fallback in this backend. -/
def s3_newer_core (dec : String → Except String JVal) (got : ReadResult) (latest : String) :
    Except String Bool :=
  match got with
  | .err msg =>
      if pyIn "specified key does not exist" msg then .ok true else .error msg
  | .ok body =>
      match dec body with
      | .error msg =>
          if pyIn "No JSON object could be decoded" msg then .ok true else .error msg
      | .ok body_obj =>
          match dec latest with
          | .error msg =>
              if pyIn "No JSON object could be decoded" msg then .ok true else .error msg
          | .ok latest_obj =>
              let p := remove_metadata body_obj latest_obj
              .ok (_updated p.2 p.1)

/-- Model of LocalPublisher.newer (publisher.py lines 143-173),
parametrised by the decoder and the outcome of opening the file.  An
IOError whose message contains the no-such-file marker falls through to
return True; any other IOError is re-raised.  A ValueError from either
json.load(fil) or json.loads(latest) lands in the handler that re-reads
the file as a string and returns _updated(latest, existing) on raw
strings (the re-read returns the same content the first read saw). -/
def local_newer_core (dec : String → Except String JVal) (got : ReadResult) (latest : String) :
    Except String Bool :=
  match got with
  | .err msg =>
      if pyIn "No such file or directory:" msg then .ok true else .error msg
  | .ok raw =>
      match dec raw with
      | .error _ => .ok (_updated (.str latest) (.str raw))
      | .ok existing =>
          match dec latest with
          | .error _ => .ok (_updated (.str latest) (.str raw))
          | .ok latest_obj =>
              let p := remove_metadata existing latest_obj
              .ok (_updated p.2 p.1)

/-- Model of os.path.join(a, b) for the shapes the code produces: an
absolute second component discards the first, otherwise the components
are joined with a separator. -/
def pyPathJoin (a b : String) : String :=
  if startsWithL ['/'] b.toList then b else a ++ "/" ++ b

/-- IOError message open() produces for a missing path. -/
def noSuchFileMsg (p : String) : String :=
  "[Errno 2] No such file or directory: " ++ p

/-- Read from a modelled local filesystem (a partial map from path to
content), producing the ReadResult LocalPublisher.newer starts from. -/
def fsRead (fs : String → Option String) (p : String) : ReadResult :=
  match fs p with
  | some c => .ok c
  | none => .err (noSuchFileMsg p)

/-- LocalPublisher.newer against a modelled filesystem: the file path is
path.join(self.base_path, name). -/
def local_newer (dec : String → Except String JVal) (fs : String → Option String)
    (base_path name latest : String) : Except String Bool :=
  local_newer_core dec (fsRead fs (pyPathJoin base_path name)) latest

/-- Model of LocalPublisher.publish_file (publisher.py lines 175-182).
Note the source passes the already joined file_path, not name, as the
name argument of self.newer, which joins again.  Returns the updated
filesystem and whether a write happened. -/
def LocalPublisher_publish_file (dec : String → Except String JVal)
    (fs : String → Option String) (base_path name contents : String) :
    Except String ((String → Option String) × Bool) :=
  let file_path := pyPathJoin base_path name
  match local_newer dec fs base_path file_path contents with
  | .error e => .error e
  | .ok false => .ok (fs, false)
  | .ok true => .ok (fun p => if p = file_path then some contents else fs p, true)

/-- Driver used to state the publish idempotence claim: publish the same
contents twice in succession and report which of the two calls wrote. -/
def publishTwice (dec : String → Except String JVal) (fs : String → Option String)
    (base_path name contents : String) : Option (Bool × Bool) :=
  match LocalPublisher_publish_file dec fs base_path name contents with
  | .error _ => none
  | .ok (fs1, w1) =>
      match LocalPublisher_publish_file dec fs1 base_path name contents with
      | .error _ => none
      | .ok (_, w2) => some (w1, w2)

/-- Model of Test._wait_results (testing.py lines 123-149) on the
sequence of StackStatus strings observed while polling, in order.  Each
iteration: break when COMPLETE occurs in the status; otherwise set the
failure flag when ROLLBACK occurs in it, and break when ROLLBACK_FAILED
occurs in it; the result is not stack_failure.  A none result means the
observed prefix ended before the loop reached a terminal status. -/
def wait_results_aux : Bool → List String → Option Bool
  | _, [] => none
  | sf, s :: rest =>
      if pyIn "COMPLETE" s then some (!sf)
      else
        let sf2 := if pyIn "ROLLBACK" s && !sf then true else sf
        if pyIn "ROLLBACK_FAILED" s then some (!sf2)
        else wait_results_aux sf2 rest

/-- Entry point of the polling loop, with the failure flag initially
False; Test.run returns this value in live mode. -/
def wait_results (statuses : List String) : Option Bool :=
  wait_results_aux false statuses

/-- A template as the flattening in testing.py sees it: a name and the
test parameter groups, each group carrying its dependency templates.
The prepare_test hook may add dependencies before they are read; the
groups here are the post-hook state.  Sharing in the Python object graph
(a diamond) unfolds to equal subtrees of this type. -/
inductive Templ where
  | mk (name : String) (groups : List (String × List Templ))

/-- The name of a template. -/
def Templ.name : Templ → String
  | .mk n _ => n

/-- The test parameter groups of a template. -/
def Templ.groups : Templ → List (String × List Templ)
  | .mk _ gs => gs

/-- Python dict get on the ordered dict of flattened templates. -/
def dictGet (d : List (String × Templ)) (k : String) : Option Templ :=
  match d with
  | [] => none
  | (k2, v) :: rest => if k2 == k then some v else dictGet rest k

/-- Python dict assignment d[k] = v: replace in place when the key is
present (keeping its position), append otherwise. -/
def dictSet (d : List (String × Templ)) (k : String) (v : Templ) : List (String × Templ) :=
  match d with
  | [] => [(k, v)]
  | (k2, w) :: rest => if k2 == k then (k2, v) :: rest else (k2, w) :: dictSet rest k v

/-- Python dict.update(other): assign every item of other in order. -/
def dictUpdate (d other : List (String × Templ)) : List (String × Templ) :=
  other.foldl (fun acc p => dictSet acc p.1 p.2) d

mutual
/-- The loop of _recurse_dependencies (testing.py lines 240-253) over a
template list, threading the flattened dict. -/
def recurseList (acc : List (String × Templ)) : List Templ → List (String × Templ)
  | [] => acc
  | t :: rest => recurseList (recurseOne acc t) rest
/-- One loop iteration: after the prepare_test hook (already applied in
this model), insert the template under its name unless the name is
already bound, then walk its test parameter groups. -/
def recurseOne (acc : List (String × Templ)) : Templ → List (String × Templ)
  | .mk name groups =>
      let acc1 := if (dictGet acc name).isNone then acc ++ [(name, .mk name groups)] else acc
      recurseGroups acc1 groups
/-- For each test parameter group whose dependency list is non-empty
(an empty list is falsy), merge the recursive flattening of the
dependencies into the accumulator with dict.update. -/
def recurseGroups (acc : List (String × Templ)) :
    List (String × List Templ) → List (String × Templ)
  | [] => acc
  | (_, deps) :: rest =>
      let acc1 := if deps.isEmpty then acc else dictUpdate acc (recurseList [] deps)
      recurseGroups acc1 rest
end

/-- Model of _recurse_dependencies: flatten starting from an empty dict. -/
def _recurse_dependencies (ts : List Templ) : List (String × Templ) :=
  recurseList [] ts

/-- Model of _flatten_templates (testing.py lines 235-237): the values
of the flattened dict. -/
def _flatten_templates (ts : List Templ) : List Templ :=
  (_recurse_dependencies ts).map Prod.snd

mutual
/-- All template names occurring in a template, its groups included. -/
def hasNameT (k : String) : Templ → Bool
  | .mk n groups => k == n || hasNameGroups k groups
/-- Name occurrence inside a group list. -/
def hasNameGroups (k : String) : List (String × List Templ) → Bool
  | [] => false
  | (_, deps) :: rest => hasNameList k deps || hasNameGroups k rest
/-- Name occurrence inside a template list. -/
def hasNameList (k : String) : List Templ → Bool
  | [] => false
  | t :: rest => hasNameT k t || hasNameList k rest
end

/-- Keys of an item list are pairwise distinct (a Python dict never
holds the same key twice). -/
def nodupKeysL : List (String × JVal) → Bool
  | [] => true
  | (k, _) :: rest => !(hasKeyL k rest) && nodupKeysL rest

mutual
/-- Well-formedness of a decoded value as an image of a Python object:
every mapping in the tree has pairwise distinct keys. -/
def WF : JVal → Bool
  | .arr xs => WFList xs
  | .tup xs => WFList xs
  | .obj kvs => nodupKeysL kvs && WFPairs kvs
  | _ => true
/-- Well-formedness of every element of a sequence. -/
def WFList : List JVal → Bool
  | [] => true
  | x :: xs => WF x && WFList xs
/-- Well-formedness of every value of an item list. -/
def WFPairs : List (String × JVal) → Bool
  | [] => true
  | (_, v) :: rest => WF v && WFPairs rest
end

mutual
/-- Two values are identical up to reordering of mapping keys, at any
nesting level: scalars are equal, sequences and tuples relate
elementwise, and a mapping relates to any permutation of an item list
with the same keys in the same order and deeply related values. -/
def KeyPerm : JVal → JVal → Prop
  | .null, .null => True
  | .bool a, .bool b => a = b
  | .num a, .num b => a = b
  | .str a, .str b => a = b
  | .arr xs, .arr ys => KeyPermList xs ys
  | .tup xs, .tup ys => KeyPermList xs ys
  | .obj kvs, .obj kvs' => ∃ mid, KeyPermPairs kvs mid ∧ List.Perm mid kvs'
  | _, _ => False
termination_by a _ => sizeOf a
/-- Elementwise KeyPerm on sequences. -/
def KeyPermList : List JVal → List JVal → Prop
  | [], [] => True
  | x :: xs, y :: ys => KeyPerm x y ∧ KeyPermList xs ys
  | _, _ => False
termination_by xs _ => sizeOf xs
/-- Pointwise relation on item lists: same keys in the same order,
deeply related values. -/
def KeyPermPairs : List (String × JVal) → List (String × JVal) → Prop
  | [], [] => True
  | (k, v) :: ps, (k2, w) :: qs => k = k2 ∧ KeyPerm v w ∧ KeyPermPairs ps qs
  | _, _ => False
termination_by ps _ => sizeOf ps
end

/-- Key membership in the flattened template dict. -/
def dictHasKey (d : List (String × Templ)) (k : String) : Bool := (dictGet d k).isSome

/-- Keys of the flattened template dict are pairwise distinct. -/
def nodupKeysT : List (String × Templ) → Bool
  | [] => true
  | (k, _) :: rest => !(dictHasKey rest k) && nodupKeysT rest

/-- A concrete decoder: decodes the empty JSON object and fails on
everything else with the Python 3 json message. -/
def dec0 : String → Except String JVal :=
  fun s => if s = "\x7b\x7d" then .ok (.obj []) else .error "Expecting value: line 1 column 1 (char 0)"

/-- A concrete decoder that always fails with the Python 2 json message
(legacy plain-text stored content). -/
def decPy2 : String → Except String JVal :=
  fun _ => .error "No JSON object could be decoded"

/-- An empty modelled filesystem. -/
def fs0 : String → Option String := fun _ => none

/-- A template named A with no test parameter groups. -/
def tA1 : Templ := .mk "A" []

/-- A different template also named A (one empty parameter group). -/
def tA2 : Templ := .mk "A" [("default", [])]

/-- A template named B whose default group depends on tA2. -/
def tB : Templ := .mk "B" [("default", [tA2])]

/-- Diamond dependency graph: A depends on B and C, both depend on D. -/
def tD : Templ := .mk "D" []

/-- Left arm of the diamond. -/
def tBd : Templ := .mk "B" [("default", [tD])]

/-- Right arm of the diamond. -/
def tCd : Templ := .mk "C" [("default", [tD])]

/-- Top of the diamond. -/
def tAd : Templ := .mk "A" [("default", [tBd, tCd])]

/-- Concrete mapping from the spec scenario:
existing = obj with A mapped to 1 and B mapped to a nested mapping. -/
def M0 : JVal := .obj [("A", .num 1), ("B", .obj [("X", .num 1), ("Y", .num 2)])]

/-- The same mapping with keys reordered at both nesting levels. -/
def M0p : JVal := .obj [("B", .obj [("Y", .num 2), ("X", .num 1)]), ("A", .num 1)]

theorem hasKeyL_append (k : String) (l1 l2 : List (String × JVal)) :
    hasKeyL k (l1 ++ l2) = (hasKeyL k l1 || hasKeyL k l2) := by
  induction l1 with
  | nil => simp [hasKeyL, getL]
  | cons p rest ih =>
      obtain ⟨k2, v⟩ := p
      by_cases h : k2 == k <;> simp [hasKeyL, getL, h] <;>
        simpa [hasKeyL] using ih

theorem getL_append_not (k : String) (l1 l2 : List (String × JVal))
    (h : hasKeyL k l1 = false) : getL k (l1 ++ l2) = getL k l2 := by
  induction l1 with
  | nil => simp
  | cons p rest ih =>
      obtain ⟨k2, v⟩ := p
      by_cases hk : k2 == k
      · simp [hasKeyL, getL, hk] at h
      · simp [hasKeyL, getL, hk] at h ⊢
        exact ih (by simp [hasKeyL, h])

theorem setKeyL_append_not (k : String) (v : JVal) (l1 l2 : List (String × JVal))
    (h : hasKeyL k l1 = false) : setKeyL k v (l1 ++ l2) = l1 ++ setKeyL k v l2 := by
  induction l1 with
  | nil => simp
  | cons p rest ih =>
      obtain ⟨k2, w⟩ := p
      by_cases hk : k2 == k
      · simp [hasKeyL, getL, hk] at h
      · simp [hasKeyL, getL, hk] at h ⊢
        simp [setKeyL, hk]
        exact ih (by simp [hasKeyL, h])

theorem delKeyL_append_not (k : String) (l1 l2 : List (String × JVal))
    (h : hasKeyL k l1 = false) : delKeyL k (l1 ++ l2) = l1 ++ delKeyL k l2 := by
  induction l1 with
  | nil => simp
  | cons p rest ih =>
      obtain ⟨k2, w⟩ := p
      by_cases hk : k2 == k
      · simp [hasKeyL, getL, hk] at h
      · simp [hasKeyL, getL, hk] at h ⊢
        simp [delKeyL, hk]
        exact ih (by simp [hasKeyL, h])

theorem hasKeyL_of_mem {k : String} {w : JVal} {l : List (String × JVal)}
    (h : (k, w) ∈ l) : hasKeyL k l = true := by
  induction l with
  | nil => simp at h
  | cons p rest ih =>
      obtain ⟨k2, v⟩ := p
      rcases List.mem_cons.mp h with h1 | h1
      · obtain ⟨rfl, rfl⟩ := Prod.mk.injEq .. ▸ h1
        simp [hasKeyL, getL]
      · by_cases hk : k2 == k <;> simp [hasKeyL, getL, hk] <;>
          simpa [hasKeyL] using ih h1

theorem sizeOf_snd_lt_of_mem {k : String} {v : JVal} {l : List (String × JVal)}
    (h : (k, v) ∈ l) : sizeOf v < sizeOf l := by
  have h1 := List.sizeOf_lt_of_mem h
  have h2 : sizeOf (k, v) = 1 + sizeOf k + sizeOf v := rfl
  omega

theorem WFList_mem {xs : List JVal} (h : WFList xs = true) {x : JVal} (hx : x ∈ xs) :
    WF x = true := by
  induction xs with
  | nil => simp at hx
  | cons y ys ih =>
      simp only [WFList, Bool.and_eq_true] at h
      rcases List.mem_cons.mp hx with rfl | hx2
      · exact h.1
      · exact ih h.2 hx2

theorem WFPairs_mem {kvs : List (String × JVal)} (h : WFPairs kvs = true) {k : String}
    {v : JVal} (hv : (k, v) ∈ kvs) : WF v = true := by
  induction kvs with
  | nil => simp at hv
  | cons p rest ih =>
      obtain ⟨k2, w⟩ := p
      simp only [WFPairs, Bool.and_eq_true] at h
      rcases List.mem_cons.mp hv with h1 | h1
      · cases h1; exact h.1
      · exact ih h.2 h1

theorem pyFind_of_mem_nodup {k : String} {w : JVal} {l : List (String × JVal)}
    (hnd : nodupKeysL l = true) (hmem : (k, w) ∈ l) {v : JVal} (hv : pyEq v w = true) :
    pyFind k v l = true := by
  induction l with
  | nil => simp at hmem
  | cons p rest ih =>
      obtain ⟨k2, w2⟩ := p
      simp only [nodupKeysL, Bool.and_eq_true, Bool.not_eq_true'] at hnd
      rcases List.mem_cons.mp hmem with h1 | h1
      · cases h1
        simp [pyFind, hv]
      · have hne : (k2 == k) = false := by
          by_contra hc
          have hk : k2 = k := by
            have := Bool.not_eq_false (k2 == k) ▸ hc
            exact beq_iff_eq.mp (Bool.of_not_eq_false hc)
          subst hk
          exact absurd (hasKeyL_of_mem h1) (by simp [hnd.1])
        simp only [pyFind, hne, Bool.false_eq_true, if_false]
        exact ih hnd.2 h1

theorem pyEqObj_of_forall {kvs l : List (String × JVal)}
    (h : ∀ p ∈ kvs, pyFind p.1 p.2 l = true) : pyEqObj kvs l = true := by
  induction kvs with
  | nil => simp [pyEqObj]
  | cons p rest ih =>
      obtain ⟨k, v⟩ := p
      simp only [pyEqObj, Bool.and_eq_true]
      exact ⟨h (k, v) (by simp), ih (fun q hq => h q (by simp [hq]))⟩

theorem pyEqList_self {xs : List JVal} (h : ∀ x ∈ xs, pyEq x x = true) :
    pyEqList xs xs = true := by
  induction xs with
  | nil => simp [pyEqList]
  | cons x rest ih =>
      simp only [pyEqList, Bool.and_eq_true]
      exact ⟨h x (by simp), ih (fun y hy => h y (by simp [hy]))⟩

theorem pyEq_refl_aux : ∀ (n : Nat) (v : JVal), sizeOf v < n → WF v = true → pyEq v v = true := by
  intro n
  induction n with
  | zero => intro v h _; omega
  | succ n ih =>
      intro v hsz hwf
      cases v with
      | null => simp [pyEq]
      | bool b => simp [pyEq]
      | num m => simp [pyEq]
      | str s => simp [pyEq]
      | arr xs =>
          have hs : sizeOf (JVal.arr xs) = 1 + sizeOf xs := by simp
          simp only [WF] at hwf
          simp only [pyEq]
          refine pyEqList_self (fun x hx => ih x ?_ (WFList_mem hwf hx))
          have := List.sizeOf_lt_of_mem hx
          omega
      | tup xs =>
          have hs : sizeOf (JVal.tup xs) = 1 + sizeOf xs := by simp
          simp only [WF] at hwf
          simp only [pyEq]
          refine pyEqList_self (fun x hx => ih x ?_ (WFList_mem hwf hx))
          have := List.sizeOf_lt_of_mem hx
          omega
      | obj kvs =>
          have hs : sizeOf (JVal.obj kvs) = 1 + sizeOf kvs := by simp
          simp only [WF, Bool.and_eq_true] at hwf
          simp only [pyEq, beq_self_eq_true, Bool.true_and]
          refine pyEqObj_of_forall (fun p hp => ?_)
          obtain ⟨k, v⟩ := p
          refine pyFind_of_mem_nodup hwf.1 hp (ih v ?_ (WFPairs_mem hwf.2 hp))
          have := sizeOf_snd_lt_of_mem hp
          omega

theorem pyEq_refl {v : JVal} (h : WF v = true) : pyEq v v = true :=
  pyEq_refl_aux (sizeOf v + 1) v (by omega) h

theorem sortVals_eq_map (kvs : List (String × JVal)) :
    sortVals kvs = kvs.map (fun p => (p.1, _sort_dict p.2)) := by
  induction kvs with
  | nil => simp [sortVals]
  | cons p rest ih =>
      obtain ⟨k, v⟩ := p
      cases v <;> simp [sortVals, _sort_dict, ih]

theorem odEqPairs_self {l : List (String × JVal)} (h : ∀ p ∈ l, odEq p.2 p.2 = true) :
    odEqPairs l l = true := by
  induction l with
  | nil => simp [odEqPairs]
  | cons p rest ih =>
      obtain ⟨k, v⟩ := p
      simp only [odEqPairs, Bool.and_eq_true, beq_self_eq_true, true_and]
      exact ⟨h (k, v) (by simp), ih (fun q hq => h q (by simp [hq]))⟩

theorem odEq_sort_refl_aux : ∀ (n : Nat) (v : JVal), sizeOf v < n → WF v = true →
    odEq (_sort_dict v) (_sort_dict v) = true := by
  intro n
  induction n with
  | zero => intro v h _; omega
  | succ n ih =>
      intro v hsz hwf
      cases v with
      | null => simp [_sort_dict, odEq, pyEq]
      | bool b => simp [_sort_dict, odEq, pyEq]
      | num m => simp [_sort_dict, odEq, pyEq]
      | str s => simp [_sort_dict, odEq, pyEq]
      | arr xs =>
          simp only [_sort_dict, odEq]
          exact pyEq_refl hwf
      | tup xs =>
          simp only [_sort_dict, odEq]
          exact pyEq_refl hwf
      | obj kvs =>
          have hs : sizeOf (JVal.obj kvs) = 1 + sizeOf kvs := by simp
          simp only [WF, Bool.and_eq_true] at hwf
          simp only [_sort_dict, odEq]
          refine odEqPairs_self (fun p hp => ?_)
          have hp2 : p ∈ sortVals kvs :=
            (List.mergeSort_perm (sortVals kvs) keyLe).mem_iff.mp hp
          rw [sortVals_eq_map] at hp2
          obtain ⟨q, hq, hfq⟩ := List.mem_map.mp hp2
          obtain ⟨k, w⟩ := q
          cases hfq
          refine ih w ?_ (WFPairs_mem hwf.2 hq)
          have := sizeOf_snd_lt_of_mem hq
          omega

theorem odEq_sort_refl {v : JVal} (h : WF v = true) :
    odEq (_sort_dict v) (_sort_dict v) = true :=
  odEq_sort_refl_aux (sizeOf v + 1) v (by omega) h

theorem instOf_self (v : JVal) : instOf v v = true := by
  cases v <;> simp [instOf]

theorem updated_self {v : JVal} (h : WF v = true) : _updated v v = false := by
  cases v with
  | obj kvs => simp [_updated, instOf_self, odEq_sort_refl h]
  | null => simp [_updated, instOf_self, pyEq_refl h]
  | bool b => simp [_updated, instOf_self, pyEq_refl h]
  | num m => simp [_updated, instOf_self, pyEq_refl h]
  | str s => simp [_updated, instOf_self, pyEq_refl h]
  | arr xs => simp [_updated, instOf_self, pyEq_refl h]
  | tup xs => simp [_updated, instOf_self, pyEq_refl h]

theorem hasKeyL_setKeyL (k k2 : String) (v : JVal) (l : List (String × JVal)) :
    hasKeyL k2 (setKeyL k v l) = hasKeyL k2 l := by
  induction l with
  | nil => simp [setKeyL]
  | cons p rest ih =>
      obtain ⟨k3, w⟩ := p
      by_cases h : k3 == k <;> by_cases h2 : k3 == k2 <;>
        simp [setKeyL, hasKeyL, getL, h, h2] <;> simpa [hasKeyL] using ih

theorem getL_setKeyL_same (k : String) (v : JVal) (l : List (String × JVal))
    (h : hasKeyL k l = true) : getL k (setKeyL k v l) = some v := by
  induction l with
  | nil => simp [hasKeyL, getL] at h
  | cons p rest ih =>
      obtain ⟨k3, w⟩ := p
      by_cases hk : k3 == k
      · simp [setKeyL, getL, hk]
      · simp [hasKeyL, getL, hk] at h
        simp [setKeyL, getL, hk]
        exact ih (by simp [hasKeyL, h])

theorem jHasKey_rm_strip (v : JVal) : jHasKey (rm_strip v) "Metadata" = jHasKey v "Metadata" := by
  by_cases h : (jHasKey v "Metadata" && jHasKey (jGet v "Metadata") TOPLEVEL_METADATA_KEY) = true
  · unfold rm_strip
    rw [if_pos h]
    cases v with
    | obj kvs => simp [jSetKey, jHasKey, hasKeyL_setKeyL]
    | null => simp [jSetKey]
    | bool b => simp [jSetKey]
    | num n => simp [jSetKey]
    | str s => simp [jSetKey]
    | arr xs => simp [jSetKey]
    | tup xs => simp [jSetKey]
  · unfold rm_strip
    rw [if_neg h]

theorem rm_meta_empty_asym (kvs1 kvs2 : List (String × JVal)) (mval : JVal)
    (hnk : hasKeyL "Metadata" (kvs1 ++ kvs2) = false) :
    remove_metadata (.obj (kvs1 ++ kvs2))
        (.obj (kvs1 ++ ("Metadata", .obj [(TOPLEVEL_METADATA_KEY, mval)]) :: kvs2)) =
      (.obj (kvs1 ++ kvs2), .obj (kvs1 ++ kvs2)) := by
  have h1 : hasKeyL "Metadata" kvs1 = false := by
    have hh := hasKeyL_append "Metadata" kvs1 kvs2
    rw [hnk] at hh
    exact (Bool.or_eq_false_iff.mp hh.symm).1
  have hnone : getL "Metadata" (kvs1 ++ kvs2) = none := by
    cases hcase : getL "Metadata" (kvs1 ++ kvs2) with
    | none => rfl
    | some x => simp [hasKeyL, hcase] at hnk
  have hget : getL "Metadata" (kvs1 ++ ("Metadata", JVal.obj [(TOPLEVEL_METADATA_KEY, mval)]) :: kvs2)
      = some (.obj [(TOPLEVEL_METADATA_KEY, mval)]) := by
    rw [getL_append_not _ _ _ h1]; simp [getL]
  have hset : setKeyL "Metadata" (.obj [])
        (kvs1 ++ ("Metadata", JVal.obj [(TOPLEVEL_METADATA_KEY, mval)]) :: kvs2)
      = kvs1 ++ ("Metadata", JVal.obj []) :: kvs2 := by
    rw [setKeyL_append_not _ _ _ _ h1]; simp [setKeyL]
  have hget2 : getL "Metadata" (kvs1 ++ ("Metadata", JVal.obj []) :: kvs2) = some (.obj []) := by
    rw [getL_append_not _ _ _ h1]; simp [getL]
  have hdel : delKeyL "Metadata" (kvs1 ++ ("Metadata", JVal.obj []) :: kvs2) = kvs1 ++ kvs2 := by
    rw [delKeyL_append_not _ _ _ h1]; simp [delKeyL]
  have hstrip1 : rm_strip (.obj (kvs1 ++ kvs2)) = .obj (kvs1 ++ kvs2) := by
    simp [rm_strip, jHasKey, hasKeyL, hnone]
  have hstrip2 : rm_strip (.obj (kvs1 ++ ("Metadata", .obj [(TOPLEVEL_METADATA_KEY, mval)]) :: kvs2))
      = .obj (kvs1 ++ ("Metadata", JVal.obj []) :: kvs2) := by
    simp [rm_strip, jHasKey, jGet, jSetKey, jDelKey, hasKeyL, hget, getL, delKeyL, hset]
  simp [remove_metadata, hstrip1, hstrip2, jHasKey, jGet, jDelKey, jEmptyKeys, hasKeyL,
    hnone, hget2, hdel]

theorem rm_meta_keeps_nonempty (ex : JVal) (ckvs mkvs : List (String × JVal))
    (hget : getL "Metadata" ckvs = some (.obj mkvs))
    (hkey : hasKeyL TOPLEVEL_METADATA_KEY mkvs = true)
    (hne : delKeyL TOPLEVEL_METADATA_KEY mkvs ≠ []) :
    jHasKey (remove_metadata ex (.obj ckvs)).2 "Metadata" = true := by
  have hstrip2 : rm_strip (.obj ckvs)
      = .obj (setKeyL "Metadata" (.obj (delKeyL TOPLEVEL_METADATA_KEY mkvs)) ckvs) := by
    unfold rm_strip
    rw [if_pos (by simpa [jHasKey, hasKeyL, jGet, hget] using hkey)]
    simp [jGet, hget, jDelKey, jSetKey]
  have hs : getL "Metadata" (setKeyL "Metadata" (.obj (delKeyL TOPLEVEL_METADATA_KEY mkvs)) ckvs)
      = some (.obj (delKeyL TOPLEVEL_METADATA_KEY mkvs)) :=
    getL_setKeyL_same _ _ _ (by simp [hasKeyL, hget])
  have hemp : (delKeyL TOPLEVEL_METADATA_KEY mkvs).isEmpty = false := by
    cases hd : delKeyL TOPLEVEL_METADATA_KEY mkvs with
    | nil => exact absurd hd hne
    | cons a l => simp
  simp only [remove_metadata, hstrip2]
  rw [if_neg (by simp [jHasKey, jGet, jEmptyKeys, hs, hemp, hasKeyL])]
  simp [jHasKey, hasKeyL, hs]

theorem rm_meta_keeps_existing (ex cand : JVal) (hex : jHasKey ex "Metadata" = true)
    (hc : jHasKey cand "Metadata" = true) :
    jHasKey (remove_metadata ex cand).2 "Metadata" = true := by
  simp only [remove_metadata]
  rw [if_neg (by simp [jHasKey_rm_strip, hex])]
  rw [jHasKey_rm_strip]
  exact hc

theorem hasKeyL_iff_mem_keys {k : String} {l : List (String × JVal)} :
    hasKeyL k l = true ↔ k ∈ l.map Prod.fst := by
  induction l with
  | nil => simp [hasKeyL, getL]
  | cons p rest ih =>
      obtain ⟨k2, v⟩ := p
      by_cases h : k2 == k
      · simp [hasKeyL, getL, h, beq_iff_eq.mp h]
      · simp only [hasKeyL, getL, h, Bool.false_eq_true, if_false, List.map_cons, List.mem_cons]
        rw [← hasKeyL]
        constructor
        · intro hh; exact Or.inr (ih.mp hh)
        · intro hh
          rcases hh with hh | hh
          · exact absurd (beq_iff_eq.mpr hh.symm) (by simp [h])
          · exact ih.mpr hh

theorem nodupKeysL_iff_nodup {l : List (String × JVal)} :
    nodupKeysL l = true ↔ (l.map Prod.fst).Nodup := by
  induction l with
  | nil => simp [nodupKeysL]
  | cons p rest ih =>
      obtain ⟨k, v⟩ := p
      simp only [nodupKeysL, Bool.and_eq_true, Bool.not_eq_true', List.map_cons, List.nodup_cons]
      constructor
      · intro ⟨h1, h2⟩
        refine ⟨fun hm => ?_, ih.mp h2⟩
        rw [← hasKeyL_iff_mem_keys] at hm
        simp [hm] at h1
      · intro ⟨h1, h2⟩
        refine ⟨?_, ih.mpr h2⟩
        by_cases hk : hasKeyL k rest = true
        · exact absurd (hasKeyL_iff_mem_keys.mp hk) h1
        · simpa using hk

theorem KPP_keys : ∀ {ps qs : List (String × JVal)}, KeyPermPairs ps qs →
    ps.map Prod.fst = qs.map Prod.fst := by
  intro ps
  induction ps with
  | nil =>
      intro qs h
      cases qs with
      | nil => rfl
      | cons q qs2 => simp [KeyPermPairs] at h
  | cons p rest ih =>
      intro qs h
      obtain ⟨k, v⟩ := p
      cases qs with
      | nil => simp [KeyPermPairs] at h
      | cons q qs2 =>
          obtain ⟨k2, w⟩ := q
          rw [KeyPermPairs] at h
          obtain ⟨hk, _, hrest⟩ := h
          simp [hk, ih hrest]

theorem KPP_mem : ∀ {ps qs : List (String × JVal)} {k : String} {v : JVal},
    KeyPermPairs ps qs → (k, v) ∈ ps → ∃ w, (k, w) ∈ qs ∧ KeyPerm v w := by
  intro ps
  induction ps with
  | nil => intro qs k v _ hm; simp at hm
  | cons p rest ih =>
      intro qs k v h hm
      obtain ⟨k1, v1⟩ := p
      cases qs with
      | nil => simp [KeyPermPairs] at h
      | cons q qs2 =>
          obtain ⟨k2, w2⟩ := q
          rw [KeyPermPairs] at h
          obtain ⟨hk, hkp, hrest⟩ := h
          rcases List.mem_cons.mp hm with h1 | h1
          · cases h1
            exact ⟨w2, by simp [hk], hkp⟩
          · obtain ⟨w, hw, hkpw⟩ := ih hrest h1
            exact ⟨w, by simp [hw], hkpw⟩

theorem KPP_mem_nodup : ∀ {ps qs : List (String × JVal)} {k : String} {v w : JVal},
    KeyPermPairs ps qs → nodupKeysL ps = true → (k, v) ∈ ps → (k, w) ∈ qs → KeyPerm v w := by
  intro ps
  induction ps with
  | nil => intro qs k v w _ _ hm; simp at hm
  | cons p rest ih =>
      intro qs k v w h hnd hm hm2
      obtain ⟨k1, v1⟩ := p
      cases qs with
      | nil => simp [KeyPermPairs] at h
      | cons q qs2 =>
          obtain ⟨k2, w2⟩ := q
          rw [KeyPermPairs] at h
          obtain ⟨hk, hkp, hrest⟩ := h
          simp only [nodupKeysL, Bool.and_eq_true, Bool.not_eq_true'] at hnd
          rcases List.mem_cons.mp hm with h1 | h1
          · cases h1
            rcases List.mem_cons.mp hm2 with h2 | h2
            · cases h2; exact hkp
            · have hkq : k ∈ qs2.map Prod.fst := hasKeyL_iff_mem_keys.mp (hasKeyL_of_mem h2)
              rw [← KPP_keys hrest] at hkq
              exact absurd (hasKeyL_iff_mem_keys.mpr hkq) (by simp [hnd.1])
          · rcases List.mem_cons.mp hm2 with h2 | h2
            · cases h2
              have : hasKeyL k rest = true := hasKeyL_of_mem h1
              subst hk
              exact absurd this (by simp [hnd.1])
            · exact ih hrest hnd.2 h1 h2

theorem pyEqList_of_KPL : ∀ {xs ys : List JVal}, KeyPermList xs ys →
    (∀ x y, x ∈ xs → y ∈ ys → KeyPerm x y → pyEq x y = true) → pyEqList xs ys = true := by
  intro xs
  induction xs with
  | nil =>
      intro ys h _
      cases ys with
      | nil => simp [pyEqList]
      | cons y ys2 => simp [KeyPermList] at h
  | cons x rest ih =>
      intro ys h hall
      cases ys with
      | nil => simp [KeyPermList] at h
      | cons y ys2 =>
          rw [KeyPermList] at h
          simp only [pyEqList, Bool.and_eq_true]
          exact ⟨hall x y (by simp) (by simp) h.1,
            ih h.2 (fun a b ha hb hk => hall a b (by simp [ha]) (by simp [hb]) hk)⟩

theorem odEqPairs_of_aligned : ∀ {l1 l2 : List (String × JVal)},
    l1.map Prod.fst = l2.map Prod.fst →
    (∀ k x y, (k, x) ∈ l1 → (k, y) ∈ l2 → odEq x y = true) → odEqPairs l1 l2 = true := by
  intro l1
  induction l1 with
  | nil =>
      intro l2 hk _
      cases l2 with
      | nil => simp [odEqPairs]
      | cons q qs => simp at hk
  | cons p rest ih =>
      intro l2 hk hall
      cases l2 with
      | nil => simp at hk
      | cons q qs =>
          obtain ⟨k1, x⟩ := p
          obtain ⟨k2, y⟩ := q
          simp only [List.map_cons, List.cons.injEq] at hk
          obtain ⟨rfl, hkeys⟩ := hk
          simp only [odEqPairs, Bool.and_eq_true, beq_self_eq_true, true_and]
          exact ⟨hall k1 x y (by simp) (by simp),
            ih hkeys (fun k a b ha hb => hall k a b (by simp [ha]) (by simp [hb]))⟩

theorem keyLe_trans : ∀ a b c : String × JVal, keyLe a b = true → keyLe b c = true → keyLe a c = true := by
  intro a b c h1 h2
  simp only [keyLe, decide_eq_true_eq] at *
  exact le_trans h1 h2

theorem keyLe_total : ∀ a b : String × JVal, (keyLe a b || keyLe b a) = true := by
  intro a b
  simp only [keyLe]
  rcases le_total a.1 b.1 with h | h
  · simp [h]
  · simp [h]

theorem sortedKeys_eq (A B : List (String × JVal))
    (h : (A.map Prod.fst).Perm (B.map Prod.fst)) :
    (A.mergeSort keyLe).map Prod.fst = (B.mergeSort keyLe).map Prod.fst := by
  have hpa : ((A.mergeSort keyLe).map Prod.fst).Perm ((B.mergeSort keyLe).map Prod.fst) := by
    refine ((List.mergeSort_perm A keyLe).map Prod.fst).trans (h.trans ?_)
    exact ((List.mergeSort_perm B keyLe).map Prod.fst).symm
  have hsa : List.Sorted (· ≤ ·) ((A.mergeSort keyLe).map Prod.fst) := by
    have hp := List.sorted_mergeSort keyLe_trans keyLe_total A
    rw [List.Sorted, List.pairwise_map]
    exact hp.imp (fun hh => by simpa [keyLe] using hh)
  have hsb : List.Sorted (· ≤ ·) ((B.mergeSort keyLe).map Prod.fst) := by
    have hp := List.sorted_mergeSort keyLe_trans keyLe_total B
    rw [List.Sorted, List.pairwise_map]
    exact hp.imp (fun hh => by simpa [keyLe] using hh)
  exact List.eq_of_perm_of_sorted hpa hsa hsb

theorem keyPerm_main : ∀ (n : Nat) (a b : JVal), sizeOf a < n → KeyPerm a b →
    WF a = true → WF b = true →
    pyEq a b = true ∧ odEq (_sort_dict a) (_sort_dict b) = true := by
  intro n
  induction n with
  | zero => intro a b h _ _ _; omega
  | succ n ih =>
      intro a b hsz hkp hwa hwb
      cases a with
      | null =>
          cases b <;> simp only [KeyPerm] at hkp
          simp [pyEq, _sort_dict, odEq]
      | bool x =>
          cases b <;> simp only [KeyPerm] at hkp
          subst hkp
          simp [pyEq, _sort_dict, odEq]
      | num x =>
          cases b <;> simp only [KeyPerm] at hkp
          subst hkp
          simp [pyEq, _sort_dict, odEq]
      | str x =>
          cases b <;> simp only [KeyPerm] at hkp
          subst hkp
          simp [pyEq, _sort_dict, odEq]
      | arr xs =>
          cases b <;> simp only [KeyPerm] at hkp
          case arr ys =>
          have hwa2 : WFList xs = true := by simpa [WF] using hwa
          have hwb2 : WFList ys = true := by simpa [WF] using hwb
          have hs : sizeOf (JVal.arr xs) = 1 + sizeOf xs := by simp
          have hlist : pyEqList xs ys = true := by
            refine pyEqList_of_KPL hkp (fun x y hx hy hk => ?_)
            refine (ih x y ?_ hk (WFList_mem hwa2 hx) (WFList_mem hwb2 hy)).1
            have := List.sizeOf_lt_of_mem hx
            omega
          exact ⟨by simpa [pyEq] using hlist, by simpa [_sort_dict, odEq, pyEq] using hlist⟩
      | tup xs =>
          cases b <;> simp only [KeyPerm] at hkp
          case tup ys =>
          have hwa2 : WFList xs = true := by simpa [WF] using hwa
          have hwb2 : WFList ys = true := by simpa [WF] using hwb
          have hs : sizeOf (JVal.tup xs) = 1 + sizeOf xs := by simp
          have hlist : pyEqList xs ys = true := by
            refine pyEqList_of_KPL hkp (fun x y hx hy hk => ?_)
            refine (ih x y ?_ hk (WFList_mem hwa2 hx) (WFList_mem hwb2 hy)).1
            have := List.sizeOf_lt_of_mem hx
            omega
          exact ⟨by simpa [pyEq] using hlist, by simpa [_sort_dict, odEq, pyEq] using hlist⟩
      | obj kvs =>
          cases b <;> simp only [KeyPerm] at hkp
          case obj kvs' =>
          obtain ⟨mid, hpp, hperm⟩ := hkp
          have hwa2 : nodupKeysL kvs = true ∧ WFPairs kvs = true := by
            simpa [WF, Bool.and_eq_true] using hwa
          have hwb2 : nodupKeysL kvs' = true ∧ WFPairs kvs' = true := by
            simpa [WF, Bool.and_eq_true] using hwb
          have hsobj : sizeOf (JVal.obj kvs) = 1 + sizeOf kvs := by simp
          have hkeys : kvs.map Prod.fst = mid.map Prod.fst := KPP_keys hpp
          have hkeysp : (kvs.map Prod.fst).Perm (kvs'.map Prod.fst) := by
            rw [hkeys]; exact hperm.map Prod.fst
          constructor
          · simp only [pyEq, Bool.and_eq_true, beq_iff_eq]
            constructor
            · simpa using hkeysp.length_eq
            · refine pyEqObj_of_forall (fun p hp => ?_)
              obtain ⟨k, v⟩ := p
              obtain ⟨w, hwm, hkvw⟩ := KPP_mem hpp hp
              have hwm' : (k, w) ∈ kvs' := hperm.mem_iff.mp hwm
              have hszv : sizeOf v < n := by
                have := sizeOf_snd_lt_of_mem hp
                omega
              have hv : pyEq v w = true :=
                (ih v w hszv hkvw (WFPairs_mem hwa2.2 hp) (WFPairs_mem hwb2.2 hwm')).1
              exact pyFind_of_mem_nodup hwb2.1 hwm' hv
          · simp only [_sort_dict, odEq]
            rw [sortVals_eq_map, sortVals_eq_map]
            refine odEqPairs_of_aligned ?_ ?_
            · apply sortedKeys_eq
              simpa [List.map_map, Function.comp] using hkeysp
            · intro k x y hx hy
              obtain ⟨⟨k1, v⟩, hv1, hfe⟩ :=
                List.mem_map.mp ((List.mergeSort_perm _ keyLe).mem_iff.mp hx)
              have hk1 : k1 = k := congrArg Prod.fst hfe
              have hx2 : _sort_dict v = x := congrArg Prod.snd hfe
              subst hk1
              subst hx2
              obtain ⟨⟨k2, w⟩, hw1, hfe2⟩ :=
                List.mem_map.mp ((List.mergeSort_perm _ keyLe).mem_iff.mp hy)
              have hk2 : k2 = k1 := congrArg Prod.fst hfe2
              have hy2 : _sort_dict w = y := congrArg Prod.snd hfe2
              rw [← hy2]
              have hw1b : (k1, w) ∈ kvs' := by rw [← hk2]; exact hw1
              have hwmid : (k1, w) ∈ mid := hperm.mem_iff.mpr hw1b
              have hkvw : KeyPerm v w := KPP_mem_nodup hpp hwa2.1 hv1 hwmid
              have hszv : sizeOf v < n := by
                have := sizeOf_snd_lt_of_mem hv1
                omega
              exact (ih v w hszv hkvw (WFPairs_mem hwa2.2 hv1) (WFPairs_mem hwb2.2 hw1b)).2

theorem instOf_of_keyPerm {a b : JVal} (h : KeyPerm a b) : instOf a b = true := by
  cases a <;> cases b <;> simp only [KeyPerm] at h <;> simp [instOf]


theorem strBeq_comm (a b : String) : (a == b) = (b == a) := by
  by_cases h : a = b
  · simp [h]
  · simp [h, Ne.symm h]

theorem dictHasKey_cons (p : String × Templ) (rest : List (String × Templ)) (k : String) :
    dictHasKey (p :: rest) k = (p.1 == k || dictHasKey rest k) := by
  obtain ⟨k2, v⟩ := p
  by_cases h : k2 == k <;> simp [dictHasKey, dictGet, h]

theorem dictHasKey_dictSet (d : List (String × Templ)) (k k2 : String) (v : Templ) :
    dictHasKey (dictSet d k v) k2 = (dictHasKey d k2 || k == k2) := by
  induction d with
  | nil =>
      by_cases h : k = k2 <;> simp [dictSet, dictHasKey, dictGet, h]
  | cons p rest ih =>
      obtain ⟨k3, w⟩ := p
      by_cases h : k3 == k
      · have hk : k3 = k := beq_iff_eq.mp h
        subst hk
        by_cases h2 : k3 == k2 <;> simp [dictSet, dictHasKey_cons, h2, dictHasKey, dictGet]
      · by_cases h2 : k3 == k2
        · simp [dictSet, h, dictHasKey_cons, h2]
        · simp only [dictSet, h, Bool.false_eq_true, if_false, dictHasKey_cons, h2,
            Bool.false_or]
          exact ih

theorem nodupKeysT_dictSet (d : List (String × Templ)) (k : String) (v : Templ)
    (h : nodupKeysT d = true) : nodupKeysT (dictSet d k v) = true := by
  induction d with
  | nil => simp [dictSet, nodupKeysT, dictHasKey, dictGet]
  | cons p rest ih =>
      obtain ⟨k3, w⟩ := p
      simp only [nodupKeysT, Bool.and_eq_true, Bool.not_eq_true'] at h
      by_cases hk : k3 == k
      · simp [dictSet, hk, nodupKeysT, h.1, h.2]
      · simp only [dictSet, hk, Bool.false_eq_true, if_false, nodupKeysT,
          Bool.and_eq_true, Bool.not_eq_true']
        refine ⟨?_, ih h.2⟩
        rw [dictHasKey_dictSet]
        simp [h.1, strBeq_comm k k3 ▸ hk]

theorem nodupKeysT_dictUpdate (d other : List (String × Templ))
    (h : nodupKeysT d = true) : nodupKeysT (dictUpdate d other) = true := by
  induction other generalizing d with
  | nil => simpa [dictUpdate]
  | cons p rest ih =>
      obtain ⟨k, v⟩ := p
      show nodupKeysT (dictUpdate (dictSet d k v) rest) = true
      exact ih _ (nodupKeysT_dictSet d k v h)

theorem dictHasKey_dictUpdate (d other : List (String × Templ)) (k : String) :
    dictHasKey (dictUpdate d other) k = (dictHasKey d k || dictHasKey other k) := by
  induction other generalizing d with
  | nil => simp [dictUpdate, dictHasKey, dictGet]
  | cons p rest ih =>
      obtain ⟨k2, v⟩ := p
      show dictHasKey (dictUpdate (dictSet d k2 v) rest) k = _
      rw [ih, dictHasKey_dictSet, dictHasKey_cons]
      by_cases h : k2 == k <;> simp [h, strBeq_comm k2 k ▸ h]

theorem dictHasKey_append (d : List (String × Templ)) (k k2 : String) (v : Templ) :
    dictHasKey (d ++ [(k, v)]) k2 = (dictHasKey d k2 || k == k2) := by
  induction d with
  | nil => by_cases h : k = k2 <;> simp [dictHasKey, dictGet, h]
  | cons p rest ih =>
      rw [List.cons_append, dictHasKey_cons, ih, dictHasKey_cons]
      cases p.1 == k2 <;> simp

theorem nodupKeysT_append_fresh (d : List (String × Templ)) (k : String) (v : Templ)
    (hfresh : dictGet d k = none) (h : nodupKeysT d = true) :
    nodupKeysT (d ++ [(k, v)]) = true := by
  induction d with
  | nil => simp [nodupKeysT, dictHasKey, dictGet]
  | cons p rest ih =>
      obtain ⟨k2, w⟩ := p
      simp only [nodupKeysT, Bool.and_eq_true, Bool.not_eq_true'] at h
      have hne : (k2 == k) = false := by
        by_cases hk : k2 == k
        · simp [dictGet, hk] at hfresh
        · simpa using hk
      have hfr : dictGet rest k = none := by simpa [dictGet, hne] using hfresh
      simp only [List.cons_append, nodupKeysT, Bool.and_eq_true, Bool.not_eq_true']
      refine ⟨?_, ih hfr h.2⟩
      show dictHasKey (rest ++ [(k, v)]) k2 = false
      rw [dictHasKey_append]
      simp [h.1, (strBeq_comm k k2).trans hne]

theorem recurse_nodup_bundle : ∀ (n : Nat),
    (∀ (acc : List (String × Templ)) (ts : List Templ), sizeOf ts < n →
      nodupKeysT acc = true → nodupKeysT (recurseList acc ts) = true) ∧
    (∀ (acc : List (String × Templ)) (t : Templ), sizeOf t < n →
      nodupKeysT acc = true → nodupKeysT (recurseOne acc t) = true) ∧
    (∀ (acc : List (String × Templ)) (gs : List (String × List Templ)), sizeOf gs < n →
      nodupKeysT acc = true → nodupKeysT (recurseGroups acc gs) = true) := by
  intro n
  induction n with
  | zero =>
      refine ⟨?_, ?_, ?_⟩ <;> (intro acc x h _; omega)
  | succ n ih =>
      obtain ⟨ihL, ihO, ihG⟩ := ih
      refine ⟨?_, ?_, ?_⟩
      · intro acc ts hsz hnd
        cases ts with
        | nil => simpa [recurseList]
        | cons t rest =>
            have hs : sizeOf (t :: rest) = 1 + sizeOf t + sizeOf rest := by simp
            simp only [recurseList]
            refine ihL _ rest (by omega) (ihO _ t (by omega) hnd)
      · intro acc t hsz hnd
        cases t with
        | mk name groups =>
            have hs : sizeOf (Templ.mk name groups) = 1 + sizeOf name + sizeOf groups := by simp
            simp only [recurseOne]
            refine ihG _ groups (by omega) ?_
            by_cases hg : (dictGet acc name).isNone
            · rw [if_pos hg]
              exact nodupKeysT_append_fresh _ _ _ (Option.isNone_iff_eq_none.mp hg) hnd
            · rw [if_neg hg]
              exact hnd
      · intro acc gs hsz hnd
        cases gs with
        | nil => simpa [recurseGroups]
        | cons g rest =>
            obtain ⟨gname, deps⟩ := g
            have hs : sizeOf ((gname, deps) :: rest) = 1 + (1 + sizeOf gname + sizeOf deps) + sizeOf rest := by
              simp
            simp only [recurseGroups]
            refine ihG _ rest (by omega) ?_
            cases deps with
            | nil => simpa [List.isEmpty]
            | cons d ds =>
                simp only [List.isEmpty, Bool.false_eq_true, if_false]
                exact nodupKeysT_dictUpdate _ _ hnd

theorem recurse_keys_bundle : ∀ (n : Nat),
    (∀ (acc : List (String × Templ)) (ts : List Templ), sizeOf ts < n → ∀ k,
      dictHasKey (recurseList acc ts) k = (dictHasKey acc k || hasNameList k ts)) ∧
    (∀ (acc : List (String × Templ)) (t : Templ), sizeOf t < n → ∀ k,
      dictHasKey (recurseOne acc t) k = (dictHasKey acc k || hasNameT k t)) ∧
    (∀ (acc : List (String × Templ)) (gs : List (String × List Templ)), sizeOf gs < n → ∀ k,
      dictHasKey (recurseGroups acc gs) k = (dictHasKey acc k || hasNameGroups k gs)) := by
  intro n
  induction n with
  | zero =>
      refine ⟨?_, ?_, ?_⟩ <;> (intro acc x h; omega)
  | succ n ih =>
      obtain ⟨ihL, ihO, ihG⟩ := ih
      refine ⟨?_, ?_, ?_⟩
      · intro acc ts hsz k
        cases ts with
        | nil => simp [recurseList, hasNameList]
        | cons t rest =>
            have hs : sizeOf (t :: rest) = 1 + sizeOf t + sizeOf rest := by simp
            simp only [recurseList]
            rw [ihL _ rest (by omega), ihO _ t (by omega)]
            simp [hasNameList, Bool.or_assoc]
      · intro acc t hsz k
        cases t with
        | mk name groups =>
            have hs : sizeOf (Templ.mk name groups) = 1 + sizeOf name + sizeOf groups := by simp
            simp only [recurseOne]
            rw [ihG _ groups (by omega)]
            have hacc1 : dictHasKey
                (if (dictGet acc name).isNone then acc ++ [(name, Templ.mk name groups)] else acc) k
                = (dictHasKey acc k || k == name) := by
              by_cases hg : (dictGet acc name).isNone
              · rw [if_pos hg, dictHasKey_append, strBeq_comm]
              · rw [if_neg hg]
                by_cases hkn : k = name
                · subst hkn
                  cases hdg : dictGet acc k with
                  | none => simp [hdg] at hg
                  | some x => simp [dictHasKey, hdg]
                · simp [hkn]
            rw [hacc1]
            simp [hasNameT, Bool.or_assoc]
      · intro acc gs hsz k
        cases gs with
        | nil => simp [recurseGroups, hasNameGroups]
        | cons g rest =>
            obtain ⟨gname, deps⟩ := g
            have hs : sizeOf ((gname, deps) :: rest) = 1 + (1 + sizeOf gname + sizeOf deps) + sizeOf rest := by
              simp
            simp only [recurseGroups]
            rw [ihG _ rest (by omega)]
            cases deps with
            | nil => simp [hasNameGroups, hasNameList]
            | cons d ds =>
                simp only [List.isEmpty, Bool.false_eq_true, if_false]
                rw [dictHasKey_dictUpdate, ihL _ (d :: ds) (by omega)]
                simp [hasNameGroups, dictHasKey, dictGet, Bool.or_assoc]

theorem startsWithL_append_self (nd rest : List Char) :
    startsWithL nd (nd ++ rest) = true := by
  induction nd with
  | nil => simp [startsWithL]
  | cons c cs ih => simp [startsWithL, ih]

theorem hasSubL_of_startsWith {nd l : List Char} (h : startsWithL nd l = true) :
    hasSubL nd l = true := by
  cases l with
  | nil => simpa [hasSubL]
  | cons c rest => simp [hasSubL, h]

theorem hasSubL_append_left (nd pre l : List Char) (h : hasSubL nd l = true) :
    hasSubL nd (pre ++ l) = true := by
  induction pre with
  | nil => simpa
  | cons c cs ih => simp [hasSubL, ih]

theorem pyIn_noSuchFile (p : String) :
    pyIn "No such file or directory:" (noSuchFileMsg p) = true := by
  have hdecomp : (noSuchFileMsg p).toList
      = "[Errno 2] ".toList ++ ("No such file or directory:".toList ++ (' ' :: p.toList)) := by
    simp [noSuchFileMsg, String.toList, String.data_append]
  rw [pyIn, hdecomp]
  exact hasSubL_append_left _ _ _
    (hasSubL_of_startsWith (by
      have := startsWithL_append_self "No such file or directory:".toList (' ' :: p.toList)
      exact this))

/-- C1: the polling loop of Test.run evaluated at the failing input.
When the first observed stack status is ROLLBACK_COMPLETE, the loop
breaks on the COMPLETE test before the rollback check can set the
failure flag, so _wait_results returns True (test passed); the spec
requires False whenever any observed status contains ROLLBACK. -/
theorem C1_rollback_complete_first_returns_true :
    wait_results ["ROLLBACK_COMPLETE"] = some true := by decide

/-- C4: evaluation of LocalPublisher.publish_file at the failing input.
With the relative base path work, publish_file passes the joined path
work/n as the name to newer, which joins again and probes work/work/n;
that path never exists, so publishing identical contents twice writes
twice and the second newer check returns true, not false. -/
theorem C4_relative_base_two_writes :
    publishTwice dec0 fs0 "work" "n" "\x7b\x7d" = some (true, true) := by decide

/-- C7 counterexample: a sequence and a tuple holding equal elements
compare as different ( _updated returns true), because
isinstance(list, tuple) and isinstance(tuple, list) are both false;
the claim says they compare as equal. -/
theorem C7_cx_list_vs_tuple :
    _updated (.arr [.num 1]) (.tup [.num 1]) = true := by
  simp [_updated, instOf]

/-- C7 amended: the comparator treats sequences and tuples as distinct
shape categories; a sequence and a tuple are always reported different,
whatever their elements. -/
theorem C7_amended_list_tuple_differ (xs ys : List JVal) :
    _updated (.arr xs) (.tup ys) = true ∧ _updated (.tup xs) (.arr ys) = true := by
  constructor <;> simp [_updated, instOf]

/-- C10: the difference predicate _updated is not symmetric: comparing
the boolean True against the integer 1 reports them identical (since
isinstance(True, int) holds and True == 1), while comparing 1 against
True reports them different (isinstance(1, bool) fails). -/
theorem C10_updated_asymmetric :
    _updated (.bool true) (.num 1) = false ∧ _updated (.num 1) (.bool true) = true := by
  constructor
  · simp [_updated, instOf, pyEq]
  · simp [_updated, instOf]

/-- C2 counterexample: the local backend returns a boolean when the
candidate latest contents fail to decode — the ValueError handler of
LocalPublisher.newer catches the failure of json.loads(latest) as well
and falls back to the raw comparison — whereas the claim requires the
failure to propagate as a fatal error on every backend. -/
theorem C2_cx_local_candidate_decode_returns_bool :
    local_newer_core dec0 (.ok "\x7b\x7d") "notjson" = .ok true := by
  simp [local_newer_core, dec0, _updated, instOf, pyEq]

/-- C2 amended: when the candidate fails to decode, the local backend
falls back to the raw string comparison and returns a boolean; the
remote backend propagates the error exactly when its message lacks the
Python 2 json marker, and returns true when it carries it. -/
theorem C2_amended_candidate_decode (dec : String → Except String JVal)
    (raw latest msg : String) (v : JVal)
    (hraw : dec raw = .ok v) (hlatest : dec latest = .error msg) :
    local_newer_core dec (.ok raw) latest = .ok (_updated (.str latest) (.str raw)) ∧
    (pyIn "No JSON object could be decoded" msg = false →
      s3_newer_core dec (.ok raw) latest = .error msg) ∧
    (pyIn "No JSON object could be decoded" msg = true →
      s3_newer_core dec (.ok raw) latest = .ok true) := by
  refine ⟨?_, fun h => ?_, fun h => ?_⟩
  · simp [local_newer_core, hraw, hlatest]
  · simp [s3_newer_core, hraw, hlatest, h]
  · simp [s3_newer_core, hraw, hlatest, h]

/-- Witness for the amended C2 at a concrete decoder and inputs. -/
theorem C2_amended_candidate_decode_witness :
    local_newer_core dec0 (.ok "\x7b\x7d") "notjson"
      = .ok (_updated (.str "notjson") (.str "\x7b\x7d")) ∧
    s3_newer_core dec0 (.ok "\x7b\x7d") "notjson"
      = .error "Expecting value: line 1 column 1 (char 0)" :=
  ⟨(C2_amended_candidate_decode dec0 "\x7b\x7d" "notjson"
      "Expecting value: line 1 column 1 (char 0)" (.obj []) rfl rfl).1,
   (C2_amended_candidate_decode dec0 "\x7b\x7d" "notjson"
      "Expecting value: line 1 column 1 (char 0)" (.obj []) rfl rfl).2.1 (by decide)⟩

/-- C3 counterexample: the remote backend never falls back to raw
comparison when the stored object fails to decode: with the Python 2
message it returns true even though the raw stored content and the
candidate are identical, where the claim requires false. -/
theorem C3_cx_s3_identical_raw_returns_true :
    s3_newer_core decPy2 (.ok "plain text") "plain text" = .ok true := by
  simp [s3_newer_core, decPy2]
  decide

/-- C3 amended: when the existing content fails to decode, the local
backend falls back to the raw string comparison (identical raw content
yields false); the remote backend never raw-compares: it returns true
when the decode error message carries the Python 2 json marker and
propagates the error otherwise. -/
theorem C3_amended_existing_decode (dec : String → Except String JVal)
    (raw latest msg : String) (hraw : dec raw = .error msg) :
    local_newer_core dec (.ok raw) latest = .ok (_updated (.str latest) (.str raw)) ∧
    (latest = raw → local_newer_core dec (.ok raw) latest = .ok false) ∧
    (pyIn "No JSON object could be decoded" msg = true →
      s3_newer_core dec (.ok raw) latest = .ok true) ∧
    (pyIn "No JSON object could be decoded" msg = false →
      s3_newer_core dec (.ok raw) latest = .error msg) := by
  refine ⟨?_, fun h => ?_, fun h => ?_, fun h => ?_⟩
  · simp [local_newer_core, hraw]
  · subst h
    simp [local_newer_core, hraw, _updated, instOf, pyEq]
  · simp [s3_newer_core, hraw, h]
  · simp [s3_newer_core, hraw, h]

/-- Witness for the amended C3 at a concrete decoder and inputs. -/
theorem C3_amended_existing_decode_witness :
    local_newer_core decPy2 (.ok "plain text") "plain text" = .ok false ∧
    s3_newer_core decPy2 (.ok "plain text") "plain text" = .ok true :=
  ⟨(C3_amended_existing_decode decPy2 "plain text" "plain text"
      "No JSON object could be decoded" rfl).2.1 rfl,
   (C3_amended_existing_decode decPy2 "plain text" "plain text"
      "No JSON object could be decoded" rfl).2.2.1 (by decide)⟩

/-- C9: on both backends the backend-specific not-found signal is
recovered locally and newer returns true, while any other read error
message is re-raised; for the local backend the modelled filesystem
read of an absent path produces exactly the recovered IOError. -/
theorem C9_absent_publishes_other_errors_fatal (dec : String → Except String JVal)
    (latest msg : String) :
    (pyIn "specified key does not exist" msg = true →
      s3_newer_core dec (.err msg) latest = .ok true) ∧
    (pyIn "specified key does not exist" msg = false →
      s3_newer_core dec (.err msg) latest = .error msg) ∧
    (pyIn "No such file or directory:" msg = true →
      local_newer_core dec (.err msg) latest = .ok true) ∧
    (pyIn "No such file or directory:" msg = false →
      local_newer_core dec (.err msg) latest = .error msg) ∧
    (∀ (fs : String → Option String) (base_path name : String),
      fs (pyPathJoin base_path name) = none →
      local_newer dec fs base_path name latest = .ok true) := by
  refine ⟨fun h => ?_, fun h => ?_, fun h => ?_, fun h => ?_, fun fs base_path name h => ?_⟩
  · simp [s3_newer_core, h]
  · simp [s3_newer_core, h]
  · simp [local_newer_core, h]
  · simp [local_newer_core, h]
  · simp [local_newer, fsRead, h, local_newer_core, pyIn_noSuchFile]

/-- Witness for C9 at concrete error messages and an empty filesystem. -/
theorem C9_absent_publishes_other_errors_fatal_witness :
    s3_newer_core dec0
      (.err "An error occurred (NoSuchKey): The specified key does not exist.") "x" = .ok true ∧
    s3_newer_core dec0 (.err "An error occurred (AccessDenied): Access Denied") "x"
      = .error "An error occurred (AccessDenied): Access Denied" ∧
    local_newer_core dec0 (.err "[Errno 2] No such file or directory: out/a.template") "x"
      = .ok true ∧
    local_newer_core dec0 (.err "[Errno 13] Permission denied: out/a.template") "x"
      = .error "[Errno 13] Permission denied: out/a.template" ∧
    local_newer dec0 fs0 "out" "a.template" "x" = .ok true :=
  ⟨(C9_absent_publishes_other_errors_fatal dec0 "x"
      "An error occurred (NoSuchKey): The specified key does not exist.").1 (by decide),
   (C9_absent_publishes_other_errors_fatal dec0 "x"
      "An error occurred (AccessDenied): Access Denied").2.1 (by decide),
   (C9_absent_publishes_other_errors_fatal dec0 "x"
      "[Errno 2] No such file or directory: out/a.template").2.2.1 (by decide),
   (C9_absent_publishes_other_errors_fatal dec0 "x"
      "[Errno 13] Permission denied: out/a.template").2.2.2.1 (by decide),
   (C9_absent_publishes_other_errors_fatal dec0 "x" "").2.2.2.2 fs0 "out" "a.template" rfl⟩

/-- C5: stripping the volatile metadata behaves as specified.  First,
for an existing mapping without a Metadata key and a candidate equal to
it except for an added Metadata mapping holding only the volatile
sub-key, remove_metadata deletes the candidate Metadata key entirely
and the comparison reports no difference.  Second, when the volatile
sub-key is deleted but the candidate Metadata mapping stays non-empty,
the Metadata key is kept.  Third, when the existing side has a Metadata
key, the candidate Metadata key is kept. -/
theorem C5_volatile_strip_asymmetry :
    (∀ (kvs1 kvs2 : List (String × JVal)) (mval : JVal),
      hasKeyL "Metadata" (kvs1 ++ kvs2) = false →
      WF (.obj (kvs1 ++ kvs2)) = true →
      remove_metadata (.obj (kvs1 ++ kvs2))
          (.obj (kvs1 ++ ("Metadata", .obj [(TOPLEVEL_METADATA_KEY, mval)]) :: kvs2)) =
        (.obj (kvs1 ++ kvs2), .obj (kvs1 ++ kvs2)) ∧
      _updated
        (remove_metadata (.obj (kvs1 ++ kvs2))
          (.obj (kvs1 ++ ("Metadata", .obj [(TOPLEVEL_METADATA_KEY, mval)]) :: kvs2))).2
        (remove_metadata (.obj (kvs1 ++ kvs2))
          (.obj (kvs1 ++ ("Metadata", .obj [(TOPLEVEL_METADATA_KEY, mval)]) :: kvs2))).1
        = false) ∧
    (∀ (ex : JVal) (ckvs mkvs : List (String × JVal)),
      getL "Metadata" ckvs = some (.obj mkvs) →
      hasKeyL TOPLEVEL_METADATA_KEY mkvs = true →
      delKeyL TOPLEVEL_METADATA_KEY mkvs ≠ [] →
      jHasKey (remove_metadata ex (.obj ckvs)).2 "Metadata" = true) ∧
    (∀ (ex cand : JVal),
      jHasKey ex "Metadata" = true → jHasKey cand "Metadata" = true →
      jHasKey (remove_metadata ex cand).2 "Metadata" = true) := by
  refine ⟨fun kvs1 kvs2 mval hnk hwf => ?_, rm_meta_keeps_nonempty, rm_meta_keeps_existing⟩
  have h := rm_meta_empty_asym kvs1 kvs2 mval hnk
  refine ⟨h, ?_⟩
  rw [h]
  exact updated_self hwf

/-- Witness for C5, at the scenario of the spec: existing has only a
Resources key, the candidate adds a Metadata block holding only the
volatile sub-key; and concrete instances of the two keep cases. -/
theorem C5_volatile_strip_asymmetry_witness :
    (remove_metadata (.obj ([("Resources", .obj [])] ++ []))
        (.obj ([("Resources", .obj [])] ++
          ("Metadata", .obj [(TOPLEVEL_METADATA_KEY, .obj [("build", .str "abc")])]) :: [])) =
      (.obj ([("Resources", .obj [])] ++ []), .obj ([("Resources", .obj [])] ++ [])) ∧
     _updated
      (remove_metadata (.obj ([("Resources", .obj [])] ++ []))
        (.obj ([("Resources", .obj [])] ++
          ("Metadata", .obj [(TOPLEVEL_METADATA_KEY, .obj [("build", .str "abc")])]) :: []))).2
      (remove_metadata (.obj ([("Resources", .obj [])] ++ []))
        (.obj ([("Resources", .obj [])] ++
          ("Metadata", .obj [(TOPLEVEL_METADATA_KEY, .obj [("build", .str "abc")])]) :: []))).1
      = false) ∧
    jHasKey (remove_metadata (.obj [])
      (.obj [("Metadata", .obj [(TOPLEVEL_METADATA_KEY, .null), ("keep", .num 1)])])).2
      "Metadata" = true ∧
    jHasKey (remove_metadata (.obj [("Metadata", .obj [])])
      (.obj [("Metadata", .obj [])])).2 "Metadata" = true :=
  ⟨C5_volatile_strip_asymmetry.1 [("Resources", .obj [])] [] (.obj [("build", .str "abc")])
      (by decide)
      (by simp [WF, WFList, WFPairs, nodupKeysL, hasKeyL, getL]),
   C5_volatile_strip_asymmetry.2.1 (.obj []) _ [(TOPLEVEL_METADATA_KEY, .null), ("keep", .num 1)]
      rfl (by decide) (by simp [delKeyL]),
   C5_volatile_strip_asymmetry.2.2 (.obj [("Metadata", .obj [])]) (.obj [("Metadata", .obj [])])
      (by decide) (by decide)⟩

/-- C6: key order never influences the verdict of the comparator.  For
well-formed values (mappings with pairwise distinct keys, as decoded
Python dicts always are) that are identical up to reordering of mapping
keys at any nesting level, _updated reports no difference. -/
theorem C6_key_order_independence (a b : JVal) (h : KeyPerm a b)
    (hwa : WF a = true) (hwb : WF b = true) : _updated a b = false := by
  have hm := keyPerm_main (sizeOf a + 1) a b (by omega) h hwa hwb
  cases a with
  | obj kvs => simp [_updated, instOf_of_keyPerm h, hm.2]
  | null => simp [_updated, instOf_of_keyPerm h, hm.1]
  | bool x => simp [_updated, instOf_of_keyPerm h, hm.1]
  | num x => simp [_updated, instOf_of_keyPerm h, hm.1]
  | str x => simp [_updated, instOf_of_keyPerm h, hm.1]
  | arr xs => simp [_updated, instOf_of_keyPerm h, hm.1]
  | tup xs => simp [_updated, instOf_of_keyPerm h, hm.1]

/-- Witness for C6 at the scenario mapping of the spec, with keys
permuted at both the top level and inside the nested mapping. -/
theorem C6_key_order_independence_witness : _updated M0 M0p = false := by
  refine C6_key_order_independence M0 M0p ?_ ?_ ?_
  · rw [M0, M0p]
    simp only [KeyPerm]
    refine ⟨[("A", .num 1), ("B", .obj [("Y", .num 2), ("X", .num 1)])], ?_, ?_⟩
    · simp only [KeyPermPairs, KeyPerm]
      refine ⟨?_, ?_, ?_, ?_, ?_⟩ <;> try trivial
      exact ⟨[("X", .num 1), ("Y", .num 2)],
        by simp [KeyPermPairs, KeyPerm], List.Perm.swap _ _ _⟩
    · exact List.Perm.swap _ _ _
  · simp [M0, WF, WFList, WFPairs, nodupKeysL, hasKeyL, getL]
  · simp [M0p, WF, WFList, WFPairs, nodupKeysL, hasKeyL, getL]

/-- C8 counterexample: first occurrence does not always win.  With a
top-level template named A and a second top-level template B whose
dependency is a different template also named A, the dict.update merge
of the recursive flattening overwrites the first A with the dependency
A, so the later occurrence wins. -/
theorem C8_cx_dependency_merge_overwrites :
    dictGet (_recurse_dependencies [tA1, tB]) "A" = some tA2 ∧ tA1 ≠ tA2 := by
  constructor
  · simp [_recurse_dependencies, recurseList, recurseOne, recurseGroups, dictUpdate, dictSet,
      dictGet, tA1, tA2, tB]
  · simp [tA1, tA2]

/-- C8 amended: flattening an acyclic template forest terminates (the
model is a total function) and yields a dict whose keys are pairwise
distinct and are exactly the reachable artifact names, so each
reachable artifact name appears exactly once; on the diamond graph the
values are A, B, D, C once each.  Duplicate names arriving from the
recursive dependency merge overwrite the earlier entry (the
counterexample above), so first occurrence wins only among direct
insertions. -/
theorem C8_amended_flatten_dedup :
    (∀ ts : List Templ, nodupKeysT (_recurse_dependencies ts) = true) ∧
    (∀ (ts : List Templ) (k : String),
      dictHasKey (_recurse_dependencies ts) k = hasNameList k ts) ∧
    _flatten_templates [tAd] = [tAd, tBd, tD, tCd] := by
  refine ⟨fun ts => ?_, fun ts k => ?_, ?_⟩
  · exact (recurse_nodup_bundle (sizeOf ts + 1)).1 [] ts (by omega) (by simp [nodupKeysT])
  · have h := (recurse_keys_bundle (sizeOf ts + 1)).1 [] ts (by omega) k
    simpa [_recurse_dependencies, dictHasKey, dictGet] using h
  · simp [_flatten_templates, _recurse_dependencies, recurseList, recurseOne, recurseGroups,
      dictUpdate, dictSet, dictGet, tAd, tBd, tCd, tD]
